import Mathlib

/-!
Shallow embedding of `fetch_pairs.py`.

The script fetches a ranked coin list from CoinMarketCap, intersects the
coin symbols with Binance `/USDT` base symbols, drops stablecoins, and
appends the newly discovered pairs to a line-delimited watchlist file.

Modelling choices:
* a coin record is reduced to its `symbol` field, the only field the
  matcher reads;
* the parsed JSON body of the listings response is an optional `data`
  field (`none` models a response body lacking the `'data'` key);
* the watchlist file is `Option (List String)`: `none` is a missing file
  (the `FileNotFoundError` branch), `some lines` is a file whose lines
  (without terminators) are `lines`; appending `p + '\n'` for each new
  pair corresponds to appending the pairs to the line list;
* Python's `str.upper` and `str.strip` are embedded as `str_upper`
  (character-wise upper-casing) and `str_strip` (dropping leading and
  trailing whitespace), defined over the string's character list.
-/

/-- Python's `str.upper`: upper-case every character. -/
def str_upper (s : String) : String :=
  ⟨s.data.map Char.toUpper⟩

/-- Python's `str.strip`: drop leading and trailing whitespace. -/
def str_strip (s : String) : String :=
  ⟨((s.data.dropWhile Char.isWhitespace).reverse.dropWhile Char.isWhitespace).reverse⟩

/-- A coin record from the listings endpoint; only `symbol` is consulted
by the matcher (`coin['symbol']` in the source). -/
structure Coin where
  symbol : String
deriving DecidableEq

/-- The parsed JSON body of the listings response: an optional top-level
`data` field holding the coin list. -/
structure CMCResponse where
  dataField : Option (List Coin)

/-- Embeds `fetch_top_coins_from_coinmarketcap` after a successful HTTP
round trip: if `'data' not in data` the function returns `[]`, otherwise
it returns `data['data']`. -/
def fetch_top_coins_from_coinmarketcap (resp : CMCResponse) : List Coin :=
  match resp.dataField with
  | none => []
  | some d => d

/-- The fixed stablecoin denylist (`stablecoins` in the source). -/
def stablecoins : List String :=
  ["USDT", "BUSD", "USDC", "TUSD", "USDP", "DAI", "FDUSD", "PAX", "UST", "USDD"]

/-- The matching loop of `save_top_pairs_by_market_cap` (step 3 in the
source): walk the coin list in order, upper-case each symbol, skip
stablecoins, and emit `SYMBOL/USDT` when the symbol is a Binance base. -/
def matched_pairs (binance_bases : List String) : List Coin → List String
  | [] => []
  | coin :: rest =>
    let symbol_upper := str_upper coin.symbol
    if symbol_upper ∈ stablecoins then
      matched_pairs binance_bases rest
    else if symbol_upper ∈ binance_bases then
      (symbol_upper ++ "/USDT") :: matched_pairs binance_bases rest
    else
      matched_pairs binance_bases rest

/-- Step 4's read of the existing file: a missing file is an empty
baseline, otherwise the set of stripped lines (`line.strip()`). -/
def existing_pairs : Option (List String) → List String
  | none => []
  | some lines => lines.map str_strip

/-- `new_pairs = [p for p in matched_pairs if p not in existing_pairs]`. -/
def new_pairs (matched existing : List String) : List String :=
  matched.filter fun p => decide (p ∉ existing)

/-- Embeds `save_top_pairs_by_market_cap` from the point where the coin
list and the Binance base-symbol set are in hand: truncate the matched
list to `limit`, read the existing file, keep only the new pairs, and
append them (creating the file) when there are any.  Returns the final
file state and the list of pairs appended in this run. -/
def save_top_pairs_by_market_cap (binance_bases : List String) (limit : Nat)
    (cmc_coins : List Coin) (file : Option (List String)) :
    Option (List String) × List String :=
  let matched := (matched_pairs binance_bases cmc_coins).take limit
  let existing := existing_pairs file
  let new := new_pairs matched existing
  if new.isEmpty then (file, new)
  else (some (file.getD [] ++ new), new)

/-! ### Basic lemmas about the embedded operations -/

theorem mem_matched_pairs {bases : List String} {coins : List Coin} {p : String} :
    p ∈ matched_pairs bases coins ↔
      ∃ c ∈ coins, str_upper c.symbol ∉ stablecoins ∧ str_upper c.symbol ∈ bases ∧
        p = str_upper c.symbol ++ "/USDT" := by
  induction coins with
  | nil => simp [matched_pairs]
  | cons c cs ih =>
    by_cases h1 : str_upper c.symbol ∈ stablecoins
    · simp only [matched_pairs, if_pos h1, ih, List.exists_mem_cons_iff]
      tauto
    · by_cases h2 : str_upper c.symbol ∈ bases
      · simp only [matched_pairs, if_neg h1, if_pos h2, List.mem_cons, ih,
          List.exists_mem_cons_iff]
        constructor
        · rintro (rfl | ⟨x, hx, h3, h4, rfl⟩)
          · exact ⟨c, Or.inl rfl, h1, h2, rfl⟩
          · exact ⟨x, Or.inr hx, h3, h4, rfl⟩
        · rintro ⟨x, rfl | hx, h3, h4, rfl⟩
          · exact Or.inl rfl
          · exact Or.inr ⟨x, hx, h3, h4, rfl⟩
      · simp only [matched_pairs, if_neg h1, if_neg h2, ih, List.exists_mem_cons_iff]
        tauto

theorem matched_pairs_append (bases : List String) (l1 l2 : List Coin) :
    matched_pairs bases (l1 ++ l2)
      = matched_pairs bases l1 ++ matched_pairs bases l2 := by
  induction l1 with
  | nil => rfl
  | cons c cs ih =>
    simp only [List.cons_append, matched_pairs]
    split
    · simp [ih]
    · split <;> simp [ih]

theorem mem_new_pairs {m e : List String} {p : String} :
    p ∈ new_pairs m e ↔ p ∈ m ∧ p ∉ e := by
  simp [new_pairs]

theorem new_pairs_sublist (m e : List String) : (new_pairs m e).Sublist m :=
  List.filter_sublist m

theorem existing_pairs_eq (f : Option (List String)) :
    existing_pairs f = (f.getD []).map str_strip := by
  cases f <;> rfl

theorem save_snd (b : List String) (l : Nat) (c : List Coin)
    (f : Option (List String)) :
    (save_top_pairs_by_market_cap b l c f).snd
      = new_pairs ((matched_pairs b c).take l) (existing_pairs f) := by
  simp only [save_top_pairs_by_market_cap]
  split <;> rfl

theorem save_fst_of_empty {b : List String} {l : Nat} {c : List Coin}
    {f : Option (List String)}
    (h : new_pairs ((matched_pairs b c).take l) (existing_pairs f) = []) :
    (save_top_pairs_by_market_cap b l c f).fst = f := by
  simp [save_top_pairs_by_market_cap, h]

theorem save_fst_of_ne {b : List String} {l : Nat} {c : List Coin}
    {f : Option (List String)}
    (h : new_pairs ((matched_pairs b c).take l) (existing_pairs f) ≠ []) :
    (save_top_pairs_by_market_cap b l c f).fst
      = some (f.getD [] ++ new_pairs ((matched_pairs b c).take l) (existing_pairs f)) := by
  simp only [save_top_pairs_by_market_cap]
  rw [if_neg]
  simpa [List.isEmpty_iff] using h

theorem matched_pairs_cons_of_hit {bases : List String} {a : Coin} (l : List Coin)
    (h1 : str_upper a.symbol ∉ stablecoins) (h2 : str_upper a.symbol ∈ bases) :
    matched_pairs bases (a :: l)
      = (str_upper a.symbol ++ "/USDT") :: matched_pairs bases l := by
  simp [matched_pairs, if_neg h1, if_pos h2]

/-! ### The claims -/

/-- C1: every pair appended by `save_top_pairs_by_market_cap` is
`SYMBOL/USDT` where `SYMBOL` is the upper-cased symbol of some input
coin, a member of the exchange base set, and not a member of the
stablecoin denylist. -/
theorem C1_appended_pairs_wellformed (bases : List String) (limit : Nat)
    (coins : List Coin) (file : Option (List String)) (p : String)
    (hp : p ∈ (save_top_pairs_by_market_cap bases limit coins file).snd) :
    ∃ c ∈ coins, p = str_upper c.symbol ++ "/USDT" ∧
      str_upper c.symbol ∈ bases ∧ str_upper c.symbol ∉ stablecoins := by
  rw [save_snd] at hp
  have h1 : p ∈ (matched_pairs bases coins).take limit := (mem_new_pairs.mp hp).1
  have h2 : p ∈ matched_pairs bases coins := List.take_subset _ _ h1
  obtain ⟨c, hc, hs, hb, rfl⟩ := mem_matched_pairs.mp h2
  exact ⟨c, hc, rfl, hb, hs⟩

/-- C1 witness: a concrete run appending `BTC/USDT` from coin `btc`. -/
theorem C1_witness :
    ∃ c ∈ [Coin.mk "btc"], "BTC/USDT" = str_upper c.symbol ++ "/USDT" ∧
      str_upper c.symbol ∈ ["BTC"] ∧ str_upper c.symbol ∉ stablecoins :=
  C1_appended_pairs_wellformed ["BTC"] 5 [Coin.mk "btc"] none "BTC/USDT" (by decide)

/-- C3: the truncated matched list, and hence the list of pairs appended
in one run, has length at most `limit`. -/
theorem C3_at_most_limit (bases : List String) (limit : Nat)
    (coins : List Coin) (file : Option (List String)) :
    ((matched_pairs bases coins).take limit).length ≤ limit ∧
      (save_top_pairs_by_market_cap bases limit coins file).snd.length ≤ limit := by
  refine ⟨List.length_take_le _ _, ?_⟩
  rw [save_snd]
  unfold new_pairs
  exact le_trans (List.length_filter_le _ _) (List.length_take_le _ _)

/-- C5: the matched-pair list preserves the relative order of the input
coins (a coin list `xs ++ a :: ys ++ b :: zs` with `a` and `b` both
emitted yields `a`'s pair before `b`'s pair), and the appended new-pairs
sequence is a sublist of the matched list, hence in the same order. -/
theorem C5_order_preserved (bases : List String) (limit : Nat)
    (file : Option (List String)) (xs ys zs : List Coin) (a b : Coin)
    (ha1 : str_upper a.symbol ∉ stablecoins) (ha2 : str_upper a.symbol ∈ bases)
    (hb1 : str_upper b.symbol ∉ stablecoins) (hb2 : str_upper b.symbol ∈ bases) :
    matched_pairs bases (xs ++ a :: ys ++ b :: zs)
        = matched_pairs bases xs ++ (str_upper a.symbol ++ "/USDT")
            :: matched_pairs bases ys ++ (str_upper b.symbol ++ "/USDT")
            :: matched_pairs bases zs
      ∧ (save_top_pairs_by_market_cap bases limit (xs ++ a :: ys ++ b :: zs)
          file).snd.Sublist (matched_pairs bases (xs ++ a :: ys ++ b :: zs)) := by
  constructor
  · rw [matched_pairs_append, matched_pairs_append,
      matched_pairs_cons_of_hit _ ha1 ha2, matched_pairs_cons_of_hit _ hb1 hb2]
  · rw [save_snd]
    exact (new_pairs_sublist _ _).trans (List.take_sublist _ _)

/-- C5 witness: a concrete two-coin list, in rank order. -/
theorem C5_witness :
    matched_pairs ["BTC", "ETH"] ([] ++ Coin.mk "BTC" :: [] ++ Coin.mk "ETH" :: [])
        = matched_pairs ["BTC", "ETH"] []
            ++ (str_upper (Coin.mk "BTC").symbol ++ "/USDT")
            :: matched_pairs ["BTC", "ETH"] []
            ++ (str_upper (Coin.mk "ETH").symbol ++ "/USDT")
            :: matched_pairs ["BTC", "ETH"] []
      ∧ (save_top_pairs_by_market_cap ["BTC", "ETH"] 3
          ([] ++ Coin.mk "BTC" :: [] ++ Coin.mk "ETH" :: []) none).snd.Sublist
          (matched_pairs ["BTC", "ETH"]
            ([] ++ Coin.mk "BTC" :: [] ++ Coin.mk "ETH" :: [])) :=
  C5_order_preserved ["BTC", "ETH"] 3 none [] [] [] (Coin.mk "BTC") (Coin.mk "ETH")
    (by decide) (by decide) (by decide) (by decide)

/-- C6: a pair is appended exactly when it is in the truncated matched
list and differs from every stripped line of the existing file, and the
appended pairs keep the matched list's order (sublist). -/
theorem C6_new_is_matched_minus_existing (bases : List String) (limit : Nat)
    (coins : List Coin) (file : Option (List String)) :
    (∀ p, p ∈ (save_top_pairs_by_market_cap bases limit coins file).snd ↔
        p ∈ (matched_pairs bases coins).take limit ∧
          p ∉ (file.getD []).map str_strip)
      ∧ (save_top_pairs_by_market_cap bases limit coins file).snd.Sublist
          ((matched_pairs bases coins).take limit) := by
  constructor
  · intro p
    rw [save_snd, mem_new_pairs, existing_pairs_eq]
  · rw [save_snd]
    exact new_pairs_sublist _ _

/-- C7: a missing watchlist file is an empty baseline, every matched
pair is then new, and the concrete scenario of the spec creates the file
with exactly the two matched pairs in order. -/
theorem C7_missing_file_empty_baseline (bases : List String) (limit : Nat)
    (coins : List Coin) :
    existing_pairs none = [] ∧
      (save_top_pairs_by_market_cap bases limit coins none).snd
        = (matched_pairs bases coins).take limit ∧
      save_top_pairs_by_market_cap ["BTC", "ETH"] 10 [Coin.mk "BTC", Coin.mk "ETH"] none
        = (some ["BTC/USDT", "ETH/USDT"], ["BTC/USDT", "ETH/USDT"]) := by
  refine ⟨rfl, ?_, by decide⟩
  rw [save_snd]
  simp [new_pairs, existing_pairs]

/-- C8: a response body without the `data` field yields an empty coin
list, and the subsequent run matches nothing and leaves the file state
untouched. -/
theorem C8_missing_data_graceful (bases : List String) (limit : Nat)
    (file : Option (List String)) :
    fetch_top_coins_from_coinmarketcap ⟨none⟩ = [] ∧
      save_top_pairs_by_market_cap bases limit
          (fetch_top_coins_from_coinmarketcap ⟨none⟩) file
        = (file, []) := by
  refine ⟨rfl, ?_⟩
  simp [save_top_pairs_by_market_cap, fetch_top_coins_from_coinmarketcap,
    matched_pairs, new_pairs]

/-- C9: truncation happens before deduplication: every appended pair
comes from the first `limit` matched pairs, and concretely with limit 1
the run appends nothing even though `ETH/USDT` is matched past the
cutoff and absent from the file. -/
theorem C9_truncate_before_dedup (bases : List String) (limit : Nat)
    (coins : List Coin) (file : Option (List String)) :
    (∀ p ∈ (save_top_pairs_by_market_cap bases limit coins file).snd,
        p ∈ (matched_pairs bases coins).take limit)
      ∧ "ETH/USDT" ∈ matched_pairs ["BTC", "ETH"] [Coin.mk "BTC", Coin.mk "ETH"]
      ∧ "ETH/USDT" ∉ (["BTC/USDT"].map str_strip)
      ∧ (save_top_pairs_by_market_cap ["BTC", "ETH"] 1 [Coin.mk "BTC", Coin.mk "ETH"]
          (some ["BTC/USDT"])).snd = [] := by
  refine ⟨?_, by decide, by decide, by decide⟩
  intro p hp
  rw [save_snd] at hp
  exact (mem_new_pairs.mp hp).1

/-- C9 witness: a concrete appended pair is within the truncated matched
list. -/
theorem C9_witness :
    "BTC/USDT" ∈ (matched_pairs ["BTC"] [Coin.mk "BTC"]).take 1 :=
  (C9_truncate_before_dedup ["BTC"] 1 [Coin.mk "BTC"] none).1 "BTC/USDT" (by decide)

/-- C10: when no new pairs are found, the file state is left untouched;
in particular a missing file stays missing. -/
theorem C10_no_write_when_no_new (bases : List String) (limit : Nat)
    (coins : List Coin) (file : Option (List String))
    (h : (save_top_pairs_by_market_cap bases limit coins file).snd = []) :
    (save_top_pairs_by_market_cap bases limit coins file).fst = file := by
  rw [save_snd] at h
  exact save_fst_of_empty h

/-- C10 witness: a run whose only matched pair is already in the file
leaves the file exactly as it was. -/
theorem C10_witness :
    (save_top_pairs_by_market_cap ["BTC"] 5 [Coin.mk "BTC"] (some ["BTC/USDT"])).snd = []
      ∧ (save_top_pairs_by_market_cap ["BTC"] 5 [Coin.mk "BTC"] (some ["BTC/USDT"])).fst
        = some ["BTC/USDT"] :=
  ⟨by decide,
    C10_no_write_when_no_new ["BTC"] 5 [Coin.mk "BTC"] (some ["BTC/USDT"]) (by decide)⟩

theorem new_pairs_eq_nil_iff {m e : List String} :
    new_pairs m e = [] ↔ ∀ p ∈ m, p ∈ e := by
  simp [new_pairs, List.filter_eq_nil_iff]

/-- C2 counterexample: a coin list repeating the same symbol makes one
run append the same pair twice, starting from a duplicate-free (empty)
file, so the file ends with a duplicate entry. -/
theorem C2_counterexample :
    (save_top_pairs_by_market_cap ["BTC"] 2 [Coin.mk "BTC", Coin.mk "BTC"]
        (some [])).fst = some ["BTC/USDT", "BTC/USDT"]
      ∧ ¬ (["BTC/USDT", "BTC/USDT"] : List String).Nodup := by
  decide

/-- C2 (amended): after a run the file is duplicate-free, provided the
prior lines are duplicate-free and already stripped, and the truncated
matched list is itself duplicate-free (the code does not deduplicate
matched pairs within a single run). -/
theorem C2_no_duplicates (bases : List String) (limit : Nat)
    (coins : List Coin) (file : Option (List String))
    (hnd : (file.getD []).Nodup)
    (hst : ∀ l ∈ file.getD [], str_strip l = l)
    (hm : ((matched_pairs bases coins).take limit).Nodup) :
    ((save_top_pairs_by_market_cap bases limit coins file).fst.getD []).Nodup := by
  by_cases h : new_pairs ((matched_pairs bases coins).take limit)
      (existing_pairs file) = []
  · rw [save_fst_of_empty h]
    exact hnd
  · rw [save_fst_of_ne h]
    simp only [Option.getD_some]
    refine List.Nodup.append hnd (hm.filter _) ?_
    intro p hp hpn
    have h2 := mem_new_pairs.mp hpn
    rw [existing_pairs_eq] at h2
    exact h2.2 (List.mem_map.mpr ⟨p, hp, hst p hp⟩)

/-- C2 witness: a concrete run satisfying the amended hypotheses. -/
theorem C2_witness :
    ((some ["OLD/USDT"] : Option (List String)).getD []).Nodup
      ∧ (∀ l ∈ (some ["OLD/USDT"] : Option (List String)).getD [], str_strip l = l)
      ∧ ((matched_pairs ["BTC"] [Coin.mk "BTC"]).take 2).Nodup
      ∧ ((save_top_pairs_by_market_cap ["BTC"] 2 [Coin.mk "BTC"]
          (some ["OLD/USDT"])).fst.getD []).Nodup :=
  ⟨by decide, by decide, by decide,
    C2_no_duplicates ["BTC"] 2 [Coin.mk "BTC"] (some ["OLD/USDT"])
      (by decide) (by decide) (by decide)⟩

/-- C4 counterexample: a symbol carrying whitespace defeats idempotence,
because the file is read back stripped while the matched pair is not:
the second run appends the same pair again. -/
theorem C4_counterexample :
    (save_top_pairs_by_market_cap [" BTC"] 5 [Coin.mk " BTC"]
        (save_top_pairs_by_market_cap [" BTC"] 5 [Coin.mk " BTC"] none).fst).snd
      = [" BTC/USDT"]
      ∧ [" BTC/USDT"] ≠ ([] : List String) := by
  decide

/-- C4 (amended): when every truncated matched pair is already stripped
(no surrounding whitespace), a second run with the same coin list and
base set, started from the file left by the first run, computes an empty
new-pairs list and leaves the file unchanged. -/
theorem C4_second_run_adds_nothing (bases : List String) (limit : Nat)
    (coins : List Coin) (file : Option (List String))
    (hst : ∀ p ∈ (matched_pairs bases coins).take limit, str_strip p = p) :
    (save_top_pairs_by_market_cap bases limit coins
        (save_top_pairs_by_market_cap bases limit coins file).fst).snd = []
      ∧ (save_top_pairs_by_market_cap bases limit coins
          (save_top_pairs_by_market_cap bases limit coins file).fst).fst
        = (save_top_pairs_by_market_cap bases limit coins file).fst := by
  have key : ∀ p ∈ (matched_pairs bases coins).take limit,
      p ∈ existing_pairs (save_top_pairs_by_market_cap bases limit coins file).fst := by
    intro p hp
    by_cases h : new_pairs ((matched_pairs bases coins).take limit)
        (existing_pairs file) = []
    · rw [save_fst_of_empty h]
      exact new_pairs_eq_nil_iff.mp h p hp
    · rw [save_fst_of_ne h, existing_pairs_eq, Option.getD_some, List.map_append]
      by_cases hmem : p ∈ existing_pairs file
      · rw [existing_pairs_eq] at hmem
        exact List.mem_append_left _ hmem
      · have hpn : p ∈ new_pairs ((matched_pairs bases coins).take limit)
            (existing_pairs file) := mem_new_pairs.mpr ⟨hp, hmem⟩
        exact List.mem_append_right _ (List.mem_map.mpr ⟨p, hpn, hst p hp⟩)
  have hnil : new_pairs ((matched_pairs bases coins).take limit)
      (existing_pairs (save_top_pairs_by_market_cap bases limit coins file).fst)
        = [] := new_pairs_eq_nil_iff.mpr key
  refine ⟨?_, save_fst_of_empty hnil⟩
  rw [save_snd]
  exact hnil

/-- C4 witness: with a whitespace-free symbol the second run is a
no-op. -/
theorem C4_witness :
    (∀ p ∈ (matched_pairs ["BTC"] [Coin.mk "BTC"]).take 5, str_strip p = p)
      ∧ (save_top_pairs_by_market_cap ["BTC"] 5 [Coin.mk "BTC"]
          (save_top_pairs_by_market_cap ["BTC"] 5 [Coin.mk "BTC"] none).fst).snd = []
      ∧ (save_top_pairs_by_market_cap ["BTC"] 5 [Coin.mk "BTC"]
          (save_top_pairs_by_market_cap ["BTC"] 5 [Coin.mk "BTC"] none).fst).fst
        = (save_top_pairs_by_market_cap ["BTC"] 5 [Coin.mk "BTC"] none).fst :=
  ⟨by decide,
    (C4_second_run_adds_nothing ["BTC"] 5 [Coin.mk "BTC"] none (by decide)).1,
    (C4_second_run_adds_nothing ["BTC"] 5 [Coin.mk "BTC"] none (by decide)).2⟩
